import Mathlib

/-!
Shallow embedding of the NeuroRA modules neurora/stuff.py and
neurora/rsa_plot.py, together with proofs about the statistical
correction and masking routines.

Modelling conventions:
* Python floats are modelled as exact rationals extended with a NaN
  marker (inductive Val below); numpy arithmetic on NaN propagates NaN.
* A 3-D numpy array is modelled as its shape (sx, sy, sz) plus its
  flat row-major data list, so the source's nested i, j, k loops
  traverse the data list in order, and img[i, j, k] is the entry at
  flat index i * (sy * sz) + j * sz + k.
* Python equality x == 0 on a float is equality with Val.num 0
  (NaN == 0 is False in Python, and Val.nan is a distinct constructor).
-/

/-- Value held by one voxel: either NaN or a finite rational. -/
inductive Val where
  | nan : Val
  | num : ℚ → Val
deriving DecidableEq, Repr

/-- Test modelling Python's math.isnan. -/
def Val.isnan : Val → Bool
  | Val.nan => true
  | Val.num _ => false

/-- Test for a finite non-zero value, the source's condition
(math.isnan(x) == False) and (x != 0). -/
def isFinNz : Val → Bool
  | Val.nan => false
  | Val.num q => decide (q ≠ 0)

/-- A 3-D map: shape plus row-major flat voxel data. -/
structure Map3 where
  sx : ℕ
  sy : ℕ
  sz : ℕ
  data : List Val
deriving DecidableEq, Repr

/-- Row-major flat index of voxel (i, j, k) in a map of y-size sy and
z-size sz. -/
def flatIdx (sy sz i j k : ℕ) : ℕ := i * (sy * sz) + j * sz + k

/-- Read voxel (i, j, k).  Out-of-range reads default to NaN; the source
only ever indexes inside the array on a well-formed map. -/
def Map3.get (m : Map3) (i j k : ℕ) : Val :=
  m.data.getD (flatIdx m.sy m.sz i j k) Val.nan

/-- Write voxel (i, j, k) (numpy element assignment). -/
def Map3.setVox (m : Map3) (i j k : ℕ) (v : Val) : Map3 :=
  { m with data := m.data.set (flatIdx m.sy m.sz i j k) v }

/-- Count of finite non-zero voxels: the triple counting loop of
fwe_correct (stuff.py lines 76-83) and fdr_correct (lines 114-122). -/
def countNZF (p : Map3) : ℕ :=
  ((List.range p.sx).map fun i =>
    ((List.range p.sy).map fun j =>
      ((List.range p.sz).map fun k =>
        if isFinNz (p.get i j k) then 1 else 0).sum).sum).sum

/-- Multiplication of one voxel by a scalar, as in numpy's p * n
(NaN times a finite number is NaN). -/
def Val.scale (v : Val) (c : ℚ) : Val :=
  match v with
  | Val.nan => Val.nan
  | Val.num q => Val.num (q * c)

/-- fwe_correct (stuff.py lines 63-89): counts the finite non-zero
voxels, then multiplies the whole map elementwise by that count
(the numpy expression fwep = p * n). -/
def fwe_correct (p : Map3) : Map3 :=
  { p with data := p.data.map fun v => v.scale (countNZF p) }

section Helpers

lemma getD_map_lt (f : Val → Val) (l : List Val) (i : ℕ) (h : i < l.length) :
    (l.map f).getD i Val.nan = f (l.getD i Val.nan) := by
  rw [List.getD_eq_getElem?_getD, List.getD_eq_getElem?_getD,
    List.getElem?_map, List.getElem?_eq_getElem h]
  simp

lemma flatIdx_lt {sx sy sz i j k : ℕ} (hi : i < sx) (hj : j < sy) (hk : k < sz) :
    flatIdx sy sz i j k < sx * sy * sz := by
  have h1 : j * sz + k < sy * sz := by
    calc j * sz + k < j * sz + sz := by omega
    _ = (j + 1) * sz := by ring
    _ ≤ sy * sz := Nat.mul_le_mul_right sz hj
  calc flatIdx sy sz i j k = i * (sy * sz) + (j * sz + k) := by
        unfold flatIdx; ring
  _ < i * (sy * sz) + sy * sz := by omega
  _ = (i + 1) * (sy * sz) := by ring
  _ ≤ sx * (sy * sz) := Nat.mul_le_mul_right (sy * sz) hi
  _ = sx * sy * sz := by ring

end Helpers

/-- C3: fwe_correct preserves shape; a finite non-zero p-value becomes
p * n where n is the number of finite non-zero voxels; exact zero stays
zero; NaN stays NaN; and on the spec's example map with values
0.01, 0.02, 0, NaN (n = 2) the output values are 0.02, 0.04, 0, NaN. -/
theorem C3_fwe_correct (p : Map3) (hwf : p.data.length = p.sx * p.sy * p.sz)
    (i j k : ℕ) (hi : i < p.sx) (hj : j < p.sy) (hk : k < p.sz) :
    ((fwe_correct p).sx = p.sx ∧ (fwe_correct p).sy = p.sy ∧
      (fwe_correct p).sz = p.sz ∧ (fwe_correct p).data.length = p.data.length) ∧
    (p.get i j k = Val.nan → (fwe_correct p).get i j k = Val.nan) ∧
    (p.get i j k = Val.num 0 → (fwe_correct p).get i j k = Val.num 0) ∧
    (∀ q : ℚ, q ≠ 0 → p.get i j k = Val.num q →
      (fwe_correct p).get i j k = Val.num (q * (countNZF p : ℚ))) ∧
    fwe_correct (Map3.mk 1 2 2
        [Val.num (1/100), Val.num (1/50), Val.num 0, Val.nan]) =
      Map3.mk 1 2 2 [Val.num (1/50), Val.num (1/25), Val.num 0, Val.nan] := by
  have hflat : flatIdx p.sy p.sz i j k < p.data.length := by
    rw [hwf]; exact flatIdx_lt hi hj hk
  have hget : (fwe_correct p).get i j k =
      (p.get i j k).scale (countNZF p) := by
    show (p.data.map fun v => v.scale (countNZF p)).getD
        (flatIdx p.sy p.sz i j k) Val.nan = _
    rw [getD_map_lt _ _ _ hflat]; rfl
  refine ⟨⟨rfl, rfl, rfl, by simp [fwe_correct]⟩, ?_, ?_, ?_, ?_⟩
  · intro h; rw [hget, h]; rfl
  · intro h; rw [hget, h]; simp [Val.scale]
  · intro q _ h; rw [hget, h]; rfl
  · norm_num [fwe_correct, countNZF, Map3.get, flatIdx, List.range_succ,
      Val.scale, isFinNz]

/-- Witness for C3 at a concrete 1 by 2 by 2 map. -/
theorem C3_witness :
    (fwe_correct (Map3.mk 1 2 2
        [Val.num (1/100), Val.num (1/50), Val.num 0, Val.nan])).get 0 0 1 =
      Val.num ((1/50 : ℚ) *
        (countNZF (Map3.mk 1 2 2
          [Val.num (1/100), Val.num (1/50), Val.num 0, Val.nan]) : ℚ)) := by
  exact (C3_fwe_correct
    (Map3.mk 1 2 2 [Val.num (1/100), Val.num (1/50), Val.num 0, Val.nan])
    (by decide) 0 0 1 (by decide) (by decide) (by decide)).2.2.2.1
    (1/50) (by norm_num) rfl

/-- List of the finite non-zero p-values of the map in row-major scan
order: the pcluster-building loop of fdr_correct (stuff.py lines
126-136). -/
def finNzVals (data : List Val) : List ℚ :=
  data.filterMap fun v =>
    match v with
    | Val.nan => none
    | Val.num q => if q = 0 then none else some q

/-- Stable ascending argsort of a rational list, modelling
np.argsort(pcluster) (stuff.py line 138): position indices sorted by
value, ties broken by position (a stable order; numpy's default
quicksort is only guaranteed to agree with this on lists without
duplicate values). -/
def argsortStable (xs : List ℚ) : List ℕ :=
  (List.range xs.length).insertionSort fun a b =>
    xs.getD a 0 < xs.getD b 0 ∨ (xs.getD a 0 = xs.getD b 0 ∧ a ≤ b)

/-- In-place rescaling loop of fdr_correct (stuff.py lines 140-141):
for l in range(n), pcluster[index[l]] becomes
pcluster[index[l]] * n / (l + 0.5). -/
def fdrScale (pcluster : List ℚ) (index : List ℕ) (n : ℕ) : List ℚ :=
  (List.range n).foldl (fun arr l =>
    arr.set (index.getD l 0)
      (arr.getD (index.getD l 0) 0 * (n : ℚ) / ((l : ℚ) + 1/2))) pcluster

/-- Scatter loop of fdr_correct (stuff.py lines 152-160): walk the map
in row-major scan order; every finite non-zero voxel receives the next
entry of newpcluster in turn, every other voxel keeps the NaN that
np.full([px, py, pz], np.nan) put there (line 124). -/
def scatterFN : List Val → List ℚ → List Val
  | [], _ => []
  | v :: rest, qs =>
    if isFinNz v then
      (match qs with
       | q :: _ => Val.num q
       | [] => Val.nan) :: scatterFN rest qs.tail
    else
      Val.nan :: scatterFN rest qs

/-- fdr_correct (stuff.py lines 94-164): collects the finite non-zero
p-values in scan order, argsorts them, rescales the value at sorted
rank l by n / (l + 0.5) in place, gathers the rescaled values in
ascending rank order into newpcluster (lines 147-150), and scatters
newpcluster back over the finite non-zero voxels in scan order. -/
def fdr_correct (p : Map3) : Map3 :=
  let pcluster := finNzVals p.data
  let n := pcluster.length
  let index := argsortStable pcluster
  let pcluster2 := fdrScale pcluster index n
  let newpcluster := (List.range n).map fun l =>
    pcluster2.getD (index.getD l 0) 0
  { p with data := scatterFN p.data newpcluster }

/-- C1 fails as stated: the code computes the
corrected value newpcluster[l] = (l-th smallest p) * n / (l + 0.5) but
scatters newpcluster back in raw scan order, so the voxel at scan
position m among the finite non-zero voxels receives the corrected
value of the (m+1)-th SMALLEST p, not of its own p.  On the 1 by 1 by 2
map with p-values 2 and 1 (n = 2): the claim predicts voxel (0,0,0)
(p = 2, ascending rank 2) holds 2 * 2 / (2 - 0.5) = 8/3 and voxel
(0,0,1) (p = 1, rank 1) holds 1 * 2 / (1 - 0.5) = 4, but the code
returns them swapped: (0,0,0) holds 4 and (0,0,1) holds 8/3. -/
theorem C1_fdr_scatter_bug :
    (fdr_correct (Map3.mk 1 1 2 [Val.num 2, Val.num 1])).data =
      [Val.num 4, Val.num (8/3)] ∧
    (fdr_correct (Map3.mk 1 1 2 [Val.num 2, Val.num 1])).get 0 0 0 ≠
      Val.num (2 * 2 / (2 - 1/2)) ∧
    (fdr_correct (Map3.mk 1 1 2 [Val.num 2, Val.num 1])).get 0 0 1 ≠
      Val.num (1 * 2 / (1 - 1/2)) := by
  have h1 : finNzVals [Val.num 2, Val.num 1] = [2, 1] := by
    norm_num [finNzVals, List.filterMap_cons, List.filterMap_nil]
  have h2 : argsortStable [2, 1] = [1, 0] := by
    norm_num [argsortStable, List.insertionSort, List.orderedInsert,
      List.range_succ]
  have h3 : fdrScale [2, 1] [1, 0] 2 = [8/3, 4] := by
    norm_num [fdrScale, List.range_succ]
  have hd : (fdr_correct (Map3.mk 1 1 2 [Val.num 2, Val.num 1])).data =
      [Val.num 4, Val.num (8/3)] := by
    simp only [fdr_correct, h1, h2]
    norm_num [h3, List.range_succ, scatterFN, isFinNz]
  refine ⟨hd, ?_, ?_⟩
  · show (fdr_correct (Map3.mk 1 1 2 [Val.num 2, Val.num 1])).data.getD
        (flatIdx 1 2 0 0 0) Val.nan ≠ _
    rw [hd]
    norm_num [flatIdx]
  · show (fdr_correct (Map3.mk 1 1 2 [Val.num 2, Val.num 1])).data.getD
        (flatIdx 1 2 0 0 1) Val.nan ≠ _
    rw [hd]
    norm_num [flatIdx]

/-- Helper: a voxel that is not finite non-zero is NaN after the scatter
loop of fdr_correct, whatever values are being scattered. -/
lemma scatterFN_getD_not (data : List Val) (qs : List ℚ) (idx : ℕ)
    (h : isFinNz (data.getD idx Val.nan) = false) (hlt : idx < data.length) :
    (scatterFN data qs).getD idx Val.nan = Val.nan := by
  induction data generalizing qs idx with
  | nil => simp at hlt
  | cons v rest ih =>
    cases idx with
    | zero =>
      have hv : isFinNz v = false := by simpa using h
      simp [scatterFN, hv]
    | succ n =>
      have h' : isFinNz (rest.getD n Val.nan) = false := by simpa using h
      have hlt' : n < rest.length := by simpa using hlt
      by_cases hv : isFinNz v
      · simp only [scatterFN, hv, if_true, List.getD_cons_succ]
        exact ih qs.tail n h' hlt'
      · simp only [scatterFN, hv, if_false, List.getD_cons_succ,
          Bool.false_eq_true]
        exact ih qs n h' hlt'

/-- C4 as amended: at every voxel of the input that is NaN the output of
fdr_correct is NaN, and at every voxel that is exactly zero the output
is NaN as well (the zero is NOT kept: fdrp is initialised to all NaN
and the scatter loop skips NaN and zero voxels). -/
theorem C4_fdr_nan_zero_voxels (p : Map3)
    (hwf : p.data.length = p.sx * p.sy * p.sz)
    (i j k : ℕ) (hi : i < p.sx) (hj : j < p.sy) (hk : k < p.sz)
    (h : p.get i j k = Val.nan ∨ p.get i j k = Val.num 0) :
    (fdr_correct p).get i j k = Val.nan := by
  have hflat : flatIdx p.sy p.sz i j k < p.data.length := by
    rw [hwf]; exact flatIdx_lt hi hj hk
  have hfin : isFinNz (p.data.getD (flatIdx p.sy p.sz i j k) Val.nan) = false := by
    rcases h with h | h <;> rw [show p.data.getD (flatIdx p.sy p.sz i j k) Val.nan
      = p.get i j k from rfl, h] <;> simp [isFinNz]
  exact scatterFN_getD_not p.data _ _ hfin hflat

/-- Witness for C4 as amended: a NaN voxel and a zero voxel of a
concrete map both come out NaN. -/
theorem C4_witness :
    (fdr_correct (Map3.mk 1 1 2 [Val.nan, Val.num 0])).get 0 0 0 = Val.nan ∧
    (fdr_correct (Map3.mk 1 1 2 [Val.nan, Val.num 0])).get 0 0 1 = Val.nan := by
  constructor
  · exact C4_fdr_nan_zero_voxels (Map3.mk 1 1 2 [Val.nan, Val.num 0]) rfl
      0 0 0 (by decide) (by decide) (by decide) (Or.inl rfl)
  · exact C4_fdr_nan_zero_voxels (Map3.mk 1 1 2 [Val.nan, Val.num 0]) rfl
      0 0 1 (by decide) (by decide) (by decide) (Or.inr rfl)

/-- Counterexample to C4 as stated: on the 1 by 1 by 1 map whose single
voxel is exactly zero, fdr_correct returns NaN at that voxel, not the
original zero. -/
theorem C4_counterexample :
    (fdr_correct (Map3.mk 1 1 1 [Val.num 0])).get 0 0 0 = Val.nan ∧
    (Map3.mk 1 1 1 [Val.num 0]).get 0 0 0 = Val.num 0 ∧
    Val.nan ≠ Val.num 0 := by
  exact ⟨rfl, rfl, by simp⟩

/-- Helper: reading a range-map built list at an in-range position. -/
lemma getD_range_map (f : ℕ → Val) (N i : ℕ) (h : i < N) :
    ((List.range N).map f).getD i Val.nan = f i := by
  rw [List.getD_eq_getElem?_getD, List.getElem?_map, List.getElem?_range h]
  simp

/-- datamask (stuff.py lines 413-443): builds a new array of the fMRI
data's shape initialised to NaN (np.full), and copies fmri_data[i,j,k]
into it wherever mask_data[i,j,k] != 0 and math.isnan(mask_data[i,j,k])
is False.  The construction below is the row-major flattening of the
source's i, j, k triple loop; under the claim's equal-shape
precondition the mask's own flat index coincides with the fMRI one. -/
def datamask (fmri_data mask_data : Map3) : Map3 :=
  { fmri_data with
    data := (List.range (fmri_data.sx * fmri_data.sy * fmri_data.sz)).map
      fun idx =>
        if mask_data.data.getD idx Val.nan ≠ Val.num 0 ∧
            (mask_data.data.getD idx Val.nan).isnan = false then
          fmri_data.data.getD idx Val.nan
        else Val.nan }

/-- C6: for equally shaped inputs, datamask preserves the shape and at
each voxel returns the fMRI value whenever the mask voxel is non-zero
and not NaN, and NaN at every other voxel. -/
theorem C6_datamask (fmri mask : Map3)
    (hsx : mask.sx = fmri.sx) (hsy : mask.sy = fmri.sy) (hsz : mask.sz = fmri.sz)
    (i j k : ℕ) (hi : i < fmri.sx) (hj : j < fmri.sy) (hk : k < fmri.sz) :
    ((datamask fmri mask).sx = fmri.sx ∧ (datamask fmri mask).sy = fmri.sy ∧
      (datamask fmri mask).sz = fmri.sz ∧
      (datamask fmri mask).data.length = fmri.sx * fmri.sy * fmri.sz) ∧
    ((mask.get i j k ≠ Val.num 0 ∧ (mask.get i j k).isnan = false) →
      (datamask fmri mask).get i j k = fmri.get i j k) ∧
    (¬ (mask.get i j k ≠ Val.num 0 ∧ (mask.get i j k).isnan = false) →
      (datamask fmri mask).get i j k = Val.nan) := by
  have hflat : flatIdx fmri.sy fmri.sz i j k < fmri.sx * fmri.sy * fmri.sz :=
    flatIdx_lt hi hj hk
  have hmg : mask.get i j k = mask.data.getD (flatIdx fmri.sy fmri.sz i j k) Val.nan := by
    unfold Map3.get; rw [hsy, hsz]
  have hget : (datamask fmri mask).get i j k =
      (if mask.get i j k ≠ Val.num 0 ∧ (mask.get i j k).isnan = false then
        fmri.get i j k else Val.nan) := by
    show ((List.range (fmri.sx * fmri.sy * fmri.sz)).map _).getD
        (flatIdx fmri.sy fmri.sz i j k) Val.nan = _
    rw [getD_range_map _ _ _ hflat, hmg]
    rfl
  refine ⟨⟨rfl, rfl, rfl, by simp [datamask]⟩, ?_, ?_⟩
  · intro h; rw [hget, if_pos h]
  · intro h; rw [hget, if_neg h]

/-- Witness for C6 on a concrete pair of 1 by 1 by 2 arrays: a voxel
with mask value 1 keeps the fMRI value, a voxel with mask value 0
becomes NaN. -/
theorem C6_witness :
    (datamask (Map3.mk 1 1 2 [Val.num 5, Val.num 7])
      (Map3.mk 1 1 2 [Val.num 1, Val.num 0])).get 0 0 0 =
      (Map3.mk 1 1 2 [Val.num 5, Val.num 7]).get 0 0 0 ∧
    (datamask (Map3.mk 1 1 2 [Val.num 5, Val.num 7])
      (Map3.mk 1 1 2 [Val.num 1, Val.num 0])).get 0 0 1 = Val.nan := by
  constructor
  · exact (C6_datamask (Map3.mk 1 1 2 [Val.num 5, Val.num 7])
      (Map3.mk 1 1 2 [Val.num 1, Val.num 0]) rfl rfl rfl
      0 0 0 (by decide) (by decide) (by decide)).2.1
      (by constructor
          · intro hc
            exact absurd (Val.num.inj hc) (by norm_num)
          · rfl)
  · exact (C6_datamask (Map3.mk 1 1 2 [Val.num 5, Val.num 7])
      (Map3.mk 1 1 2 [Val.num 1, Val.num 0]) rfl rfl rfl
      0 0 1 (by decide) (by decide) (by decide)).2.2
      (by intro hc
          exact hc.1 rfl)

/-- A 2-D matrix (an RDM): shape plus row-major flat rational data.
The plotting claims are about matrices of plain numbers, so no NaN
marker is needed here. -/
structure Mat where
  rows : ℕ
  cols : ℕ
  data : List ℚ
deriving DecidableEq, Repr

/-- Ascending list of the distinct values of a list, modelling
rsa_plot.py lines 59-63: vrdm = np.reshape(rdm, [cons * cons]),
svrdm = set(vrdm), lvrdm = list(svrdm), lvrdm.sort().  Removing
duplicates before sorting gives the same sorted-distinct list. -/
def sortedDistinct (l : List ℚ) : List ℚ :=
  l.dedup.insertionSort (· ≤ ·)

/-- Rescale block of plot_rdm (rsa_plot.py lines 56-77): maxvalue is
lvrdm[-1], minvalue is lvrdm[1] (the second-smallest distinct value;
Python raises IndexError when fewer than two distinct values exist,
which the getD default covers only formally - the claims about this
block presuppose at least two distinct values).  When maxvalue differs
from minvalue, every off-diagonal entry v is replaced in place by
(v - minvalue) / (maxvalue - minvalue); entry (i, j) of the flat data
sits at index i * cols + j, so i = idx / cols and j = idx % cols. -/
def rescaleRdm (rdm : Mat) : Mat :=
  let cons := rdm.rows
  let lvrdm := sortedDistinct rdm.data
  let maxvalue := lvrdm.getD (lvrdm.length - 1) 0
  let minvalue := lvrdm.getD 1 0
  if maxvalue ≠ minvalue then
    { rdm with data := (List.range (cons * cons)).map fun idx =>
        if idx / cons ≠ idx % cons then
          (rdm.data.getD idx 0 - minvalue) / (maxvalue - minvalue)
        else rdm.data.getD idx 0 }
  else rdm

/-- plot_rdm (rsa_plot.py lines 18-105).  Only the computational
behaviour is modelled: the first component is none for the early
return None on a failed shape check (rdm.shape[0] == 2, or non-square)
and some () when control reaches the plotting calls; the second
component is the caller-visible contents of the rdm argument after the
call (rescale=True mutates it in place). -/
def plot_rdm (rdm : Mat) (rescale : Bool) : Option Unit × Mat :=
  if rdm.rows = 2 then (none, rdm)
  else if rdm.rows ≠ rdm.cols then (none, rdm)
  else (some (), if rescale then rescaleRdm rdm else rdm)

/-- plot_rdm_withvalue (rsa_plot.py lines 110-174): same two shape
checks, no rescale step; the input is never mutated. -/
def plot_rdm_withvalue (rdm : Mat) : Option Unit × Mat :=
  if rdm.rows = 2 then (none, rdm)
  else if rdm.rows ≠ rdm.cols then (none, rdm)
  else (some (), rdm)

/-- C7: on a 2 by 2 matrix or a non-square matrix, plot_rdm (for either
value of rescale) and plot_rdm_withvalue return the null result and
leave the matrix unmodified: both shape checks run before the rescale
block. -/
theorem C7_plot_rdm_validation (rdm : Mat) (rescale : Bool)
    (h : (rdm.rows = 2 ∧ rdm.cols = 2) ∨ rdm.rows ≠ rdm.cols) :
    plot_rdm rdm rescale = (none, rdm) ∧
    plot_rdm_withvalue rdm = (none, rdm) := by
  by_cases h2 : rdm.rows = 2
  · constructor
    · unfold plot_rdm; rw [if_pos h2]
    · unfold plot_rdm_withvalue; rw [if_pos h2]
  · have hne : rdm.rows ≠ rdm.cols := by
      rcases h with ⟨ha, _⟩ | hb
      · exact absurd ha h2
      · exact hb
    constructor
    · unfold plot_rdm; rw [if_neg h2, if_pos hne]
    · unfold plot_rdm_withvalue; rw [if_neg h2, if_pos hne]

/-- Witness for C7 on a concrete 2 by 2 matrix with rescale requested. -/
theorem C7_witness :
    plot_rdm (Mat.mk 2 2 [0, 1, 1, 0]) true = (none, Mat.mk 2 2 [0, 1, 1, 0]) ∧
    plot_rdm_withvalue (Mat.mk 2 2 [0, 1, 1, 0]) =
      (none, Mat.mk 2 2 [0, 1, 1, 0]) :=
  C7_plot_rdm_validation (Mat.mk 2 2 [0, 1, 1, 0]) true
    (Or.inl ⟨rfl, rfl⟩)

section SortedDistinct

lemma sortedDistinct_sorted (l : List ℚ) :
    List.Sorted (· ≤ ·) (sortedDistinct l) :=
  List.sorted_insertionSort _ l.dedup

lemma sortedDistinct_nodup (l : List ℚ) : (sortedDistinct l).Nodup :=
  ((List.perm_insertionSort _ l.dedup).nodup_iff).mpr (List.nodup_dedup l)

lemma sortedDistinct_mem (l : List ℚ) (a : ℚ) :
    a ∈ sortedDistinct l ↔ a ∈ l := by
  unfold sortedDistinct
  rw [List.mem_insertionSort, List.mem_dedup]

lemma getD_eq_get (l : List ℚ) (i : ℕ) (h : i < l.length) :
    l.getD i 0 = l.get ⟨i, h⟩ := by
  rw [List.getD_eq_getElem?_getD, List.getElem?_eq_getElem h]; simp

/-- The second entry of the sorted-distinct list is the second-smallest
distinct value, and the last entry is the largest value. -/
lemma sortedDistinct_snd_last (l : List ℚ) (m1 m2 M : ℚ)
    (hm1 : m1 ∈ l) (hm1min : ∀ v ∈ l, m1 ≤ v)
    (hm2 : m2 ∈ l) (hm12 : m1 < m2) (hm2min : ∀ v ∈ l, v ≠ m1 → m2 ≤ v)
    (hM : M ∈ l) (hMmax : ∀ v ∈ l, v ≤ M) :
    (sortedDistinct l).getD 1 0 = m2 ∧
    (sortedDistinct l).getD ((sortedDistinct l).length - 1) 0 = M := by
  set L := sortedDistinct l with hL
  have hsor := sortedDistinct_sorted l
  have hnd := sortedDistinct_nodup l
  have hmemL : ∀ a : ℚ, a ∈ L ↔ a ∈ l := sortedDistinct_mem l
  have hget_le : ∀ (i j : ℕ) (hi : i < L.length) (hj : j < L.length),
      i ≤ j → L.get ⟨i, hi⟩ ≤ L.get ⟨j, hj⟩ := by
    intro i j hi hj hij
    rcases Nat.eq_or_lt_of_le hij with h | h
    · subst h; exact le_refl _
    · exact (List.pairwise_iff_get.mp hsor) ⟨i, hi⟩ ⟨j, hj⟩ h
  have hget_mem : ∀ (i : ℕ) (hi : i < L.length), L.get ⟨i, hi⟩ ∈ l :=
    fun i hi => (hmemL _).mp (L.get_mem i hi)
  obtain ⟨i1, hi1⟩ := List.mem_iff_get.mp ((hmemL m1).mpr hm1)
  obtain ⟨i2, hi2⟩ := List.mem_iff_get.mp ((hmemL m2).mpr hm2)
  obtain ⟨iM, hiM⟩ := List.mem_iff_get.mp ((hmemL M).mpr hM)
  have hinj := List.nodup_iff_injective_get.mp hnd
  have hne12 : i1.val ≠ i2.val := by
    intro h
    rw [Fin.ext h, hi2] at hi1
    exact absurd hi1 hm12.ne'
  have hlen2 : 2 ≤ L.length := by
    have h1 := i1.isLt
    have h2 := i2.isLt
    omega
  have hlt0 : 0 < L.length := by omega
  have hlt1 : 1 < L.length := by omega
  have h0 : L.get ⟨0, hlt0⟩ = m1 := by
    refine le_antisymm ?_ (hm1min _ (hget_mem _ _))
    calc L.get ⟨0, hlt0⟩ ≤ L.get ⟨i1.val, i1.isLt⟩ :=
          hget_le _ _ _ _ (Nat.zero_le _)
    _ = m1 := hi1
  have h1 : L.get ⟨1, hlt1⟩ = m2 := by
    refine le_antisymm ?_ ?_
    · have hi2ne0 : i2.val ≠ 0 := by
        intro h
        have he : i2 = ⟨0, hlt0⟩ := Fin.ext h
        rw [he, h0] at hi2
        exact absurd hi2 hm12.ne
      calc L.get ⟨1, hlt1⟩ ≤ L.get ⟨i2.val, i2.isLt⟩ :=
            hget_le _ _ _ _ (by omega)
      _ = m2 := hi2
    · refine hm2min _ (hget_mem _ _) ?_
      intro h
      have he : L.get ⟨1, hlt1⟩ = L.get ⟨0, hlt0⟩ := by rw [h0, h]
      have := hinj he
      simp at this
  have hlast : L.get ⟨L.length - 1, by omega⟩ = M := by
    refine le_antisymm (hMmax _ (hget_mem _ _)) ?_
    calc M = L.get ⟨iM.val, iM.isLt⟩ := hiM.symm
    _ ≤ L.get ⟨L.length - 1, by omega⟩ := by
          refine hget_le _ _ _ _ ?_
          have := iM.isLt; omega
  constructor
  · rw [getD_eq_get L 1 hlt1]; exact h1
  · rw [getD_eq_get L (L.length - 1) (by omega)]; exact hlast

end SortedDistinct

lemma getD_range_mapQ (f : ℕ → ℚ) (N i : ℕ) (h : i < N) :
    ((List.range N).map f).getD i 0 = f i := by
  rw [List.getD_eq_getElem?_getD, List.getElem?_map, List.getElem?_range h]
  simp

/-- C8: on a square matrix of size at least 3 whose largest value M
differs from its second-smallest distinct value m2, plot_rdm with
rescale=True reaches the plotting path and replaces, in place, every
off-diagonal entry v by (v - m2) / (M - m2) while every diagonal entry
is left unchanged. -/
theorem C8_plot_rdm_rescale (n : ℕ) (rdm : Mat) (m1 m2 M : ℚ)
    (hr : rdm.rows = n) (hc : rdm.cols = n) (hn : 3 ≤ n)
    (hlen : rdm.data.length = n * n)
    (hm1 : m1 ∈ rdm.data) (hm1min : ∀ v ∈ rdm.data, m1 ≤ v)
    (hm2 : m2 ∈ rdm.data) (hm12 : m1 < m2)
    (hm2min : ∀ v ∈ rdm.data, v ≠ m1 → m2 ≤ v)
    (hM : M ∈ rdm.data) (hMmax : ∀ v ∈ rdm.data, v ≤ M)
    (hne : M ≠ m2) :
    (plot_rdm rdm true).1 = some () ∧
    (plot_rdm rdm true).2.rows = n ∧ (plot_rdm rdm true).2.cols = n ∧
    (∀ i j : ℕ, i < n → j < n → i ≠ j →
      (plot_rdm rdm true).2.data.getD (i * n + j) 0 =
        (rdm.data.getD (i * n + j) 0 - m2) / (M - m2)) ∧
    (∀ i : ℕ, i < n →
      (plot_rdm rdm true).2.data.getD (i * n + i) 0 =
        rdm.data.getD (i * n + i) 0) := by
  subst hr
  have hsnd := sortedDistinct_snd_last rdm.data m1 m2 M hm1 hm1min hm2 hm12
    hm2min hM hMmax
  have hplot : plot_rdm rdm true = (some (), rescaleRdm rdm) := by
    unfold plot_rdm
    rw [if_neg (by omega), if_neg (by rw [hc]; simp)]
    rfl
  have hres : rescaleRdm rdm =
      { rdm with data := (List.range (rdm.rows * rdm.rows)).map fun idx =>
          if idx / rdm.rows ≠ idx % rdm.rows then
            (rdm.data.getD idx 0 - m2) / (M - m2)
          else rdm.data.getD idx 0 } := by
    simp only [rescaleRdm]
    rw [hsnd.1, hsnd.2, if_pos hne]
  have hn0 : 0 < rdm.rows := by omega
  have hflat : ∀ i j : ℕ, i < rdm.rows → j < rdm.rows →
      i * rdm.rows + j < rdm.rows * rdm.rows := by
    intro i j hi hj
    calc i * rdm.rows + j < i * rdm.rows + rdm.rows := by omega
    _ = (i + 1) * rdm.rows := by ring
    _ ≤ rdm.rows * rdm.rows := Nat.mul_le_mul_right _ hi
  have hdiv : ∀ i j : ℕ, j < rdm.rows → (i * rdm.rows + j) / rdm.rows = i := by
    intro i j hj
    rw [Nat.add_comm, Nat.mul_comm, Nat.add_mul_div_left _ _ hn0,
      Nat.div_eq_of_lt hj]
    omega
  have hmod : ∀ i j : ℕ, j < rdm.rows → (i * rdm.rows + j) % rdm.rows = j := by
    intro i j hj
    rw [Nat.add_comm, Nat.mul_comm, Nat.add_mul_mod_self_left]
    exact Nat.mod_eq_of_lt hj
  refine ⟨by rw [hplot], by rw [hplot, hres], by rw [hplot, hres]; exact hc, ?_, ?_⟩
  · intro i j hi hj hij
    rw [hplot, hres]
    show ((List.range (rdm.rows * rdm.rows)).map _).getD (i * rdm.rows + j) 0 = _
    rw [getD_range_mapQ _ _ _ (hflat i j hi hj)]
    rw [if_pos (by rw [hdiv i j hj, hmod i j hj]; exact hij)]
  · intro i hi
    rw [hplot, hres]
    show ((List.range (rdm.rows * rdm.rows)).map _).getD (i * rdm.rows + i) 0 = _
    rw [getD_range_mapQ _ _ _ (hflat i i hi hi)]
    rw [if_neg (by rw [hdiv i i hi, hmod i i hi]; simp)]

/-- Witness for C8: a concrete 3 by 3 RDM with distinct values 0, 1, 2, 3;
the off-diagonal entry 1 at position (0, 1) is rescaled to
(1 - 1) / (3 - 1) = 0 and the diagonal entry at (1, 1) stays 0. -/
theorem C8_witness :
    (plot_rdm (Mat.mk 3 3 [0, 1, 2, 1, 0, 3, 2, 3, 0]) true).1 = some () ∧
    (plot_rdm (Mat.mk 3 3 [0, 1, 2, 1, 0, 3, 2, 3, 0]) true).2.data.getD 1 0 =
      ((Mat.mk 3 3 [0, 1, 2, 1, 0, 3, 2, 3, 0]).data.getD 1 0 - 1) / (3 - 1) ∧
    (plot_rdm (Mat.mk 3 3 [0, 1, 2, 1, 0, 3, 2, 3, 0]) true).2.data.getD 4 0 =
      (Mat.mk 3 3 [0, 1, 2, 1, 0, 3, 2, 3, 0]).data.getD 4 0 := by
  have h := C8_plot_rdm_rescale 3 (Mat.mk 3 3 [0, 1, 2, 1, 0, 3, 2, 3, 0])
    0 1 3 rfl rfl (by norm_num) (by norm_num)
    (by norm_num) (by intro v hv; fin_cases hv <;> norm_num)
    (by norm_num) (by norm_num)
    (by intro v hv; fin_cases hv <;> norm_num)
    (by norm_num) (by intro v hv; fin_cases hv <;> norm_num)
    (by norm_num)
  refine ⟨h.1, ?_, ?_⟩
  · have := h.2.2.2.1 0 1 (by norm_num) (by norm_num) (by norm_num)
    simpa using this
  · have := h.2.2.2.2 1 (by norm_num)
    simpa using this

/-- The while loop of correct_by_threshold (stuff.py lines 313-316):
nsmall starts at 1 and is incremented while nsmall * nsmall * nsmall is
below the threshold, so the result is the least nsmall at least 1 whose
cube reaches the threshold.  For threshold at least 2 that nsmall is at
most threshold, so a bounded search over 1..threshold is exact;
for threshold at most 1 (including non-positive ones) the loop body
never runs and nsmall is 1. -/
def nsmallOf (threshold : ℤ) : ℕ :=
  (((List.range threshold.toNat).map fun (n : ℕ) => n + 1).find?
    fun (n : ℕ) =>
      decide (threshold ≤ (n : ℤ) * (n : ℤ) * (n : ℤ))).getD 1

/-- Values of the cubic n-window of the map at corner (i, j, k) in scan
order: the source's img[i:i+n, j:j+n, k:k+n] reshaped to a flat list
(used for listlarge on line 324 and for unit on lines 360-362). -/
def blockVals (img : Map3) (i j k n : ℕ) : List Val :=
  (List.range n).flatMap fun a =>
    (List.range n).flatMap fun b =>
      (List.range n).map fun c => img.get (i + a) (j + b) (k + c)

/-- Shell-zero counter index1 of correct_by_threshold (stuff.py lines
329-353), reproduced with the source's exact index ranges: the first
double loop checks the two full k-faces of the window (lines 331-338);
the second double loop runs l over range(nlarge-1) and m over
range(nlarge-2) and checks four side strips (lines 340-353), which
re-checks some face voxels and skips the ring at k-offset nlarge-2. -/
def shellZeroCount (img : Map3) (i j k nlarge : ℕ) : ℕ :=
  ((List.range nlarge).map fun l =>
    ((List.range nlarge).map fun m =>
      (if img.get (i + l) (j + m) k = Val.num 0 then 1 else 0) +
      (if img.get (i + l) (j + m) (k + nlarge - 1) = Val.num 0 then 1 else 0)).sum).sum
  + ((List.range (nlarge - 1)).map fun l =>
      ((List.range (nlarge - 2)).map fun m =>
        (if img.get (i + l) j (k + m) = Val.num 0 then 1 else 0) +
        (if img.get i (j + l + 1) (k + m) = Val.num 0 then 1 else 0) +
        (if img.get (i + nlarge - 1) (j + l) (k + m) = Val.num 0 then 1 else 0) +
        (if img.get (i + l + 1) (j + nlarge - 1) (k + m) = Val.num 0 then 1 else 0)).sum).sum

/-- Zero out the cubic n-block at corner (i, j, k): the assignment
img[i+1:i+1+nsmall, j+1:j+1+nsmall, k+1:k+1+nsmall] = np.zeros(...) of
stuff.py line 372.  The source repeats this idempotent assignment
inside a redundant l, m, p triple loop (lines 369-372) and evaluates a
no-op indexing expression on line 367; both are modelled by a single
pass over the block. -/
def zeroBlock (img : Map3) (i j k n : ℕ) : Map3 :=
  ((List.range n).flatMap fun a =>
    (List.range n).flatMap fun b =>
      (List.range n).map fun c => (a, b, c)).foldl
    (fun m t => m.setVox (i + t.1) (j + t.2.1) (k + t.2.2) (Val.num 0)) img

/-- Body of the window scan of correct_by_threshold (stuff.py lines
324-372) at window corner (i, j, k): if the window is not all zero, if
index1 equals nlarge^3 - nsmall^3, and if the number index2 of non-zero
voxels in the inner nsmall-cube is below the threshold, the inner cube
is zeroed; otherwise the map is unchanged. -/
def windowStep (threshold : ℤ) (nsmall nlarge : ℕ) (img : Map3)
    (i j k : ℕ) : Map3 :=
  if (blockVals img i j k nlarge).count (Val.num 0) <
      nlarge * nlarge * nlarge then
    if shellZeroCount img i j k nlarge =
        nlarge * nlarge * nlarge - nsmall * nsmall * nsmall then
      if ((nsmall * nsmall * nsmall -
            (blockVals img (i + 1) (j + 1) (k + 1) nsmall).count (Val.num 0)
            : ℕ) : ℤ) < threshold then
        zeroBlock img (i + 1) (j + 1) (k + 1) nsmall
      else img
    else img
  else img

/-- correct_by_threshold (stuff.py lines 288-376): computes nsmall and
nlarge = nsmall + 2, then scans all window corners i, j, k with
i in range(sx - nlarge + 1) and so on (empty when the dimension is
smaller than nlarge, which truncated natural subtraction in
sx + 1 - nlarge reproduces), mutating the array in place window by
window. -/
def correct_by_threshold (img : Map3) (threshold : ℤ) : Map3 :=
  let nsmall := nsmallOf threshold
  let nlarge := nsmall + 2
  (List.range (img.sx + 1 - nlarge)).foldl (fun m1 i =>
    (List.range (img.sy + 1 - nlarge)).foldl (fun m2 j =>
      (List.range (img.sz + 1 - nlarge)).foldl (fun m3 k =>
        windowStep threshold nsmall nlarge m3 i j k) m2) m1) img

section FoldInvariant

/-- Generic propagation of a transitive relation along a left fold. -/
lemma foldl_rel {α : Type} (R : Map3 → Map3 → Prop)
    (htrans : ∀ a b c, R a b → R b c → R a c)
    (f : Map3 → α → Map3) (m0 : Map3) :
    ∀ l : List α,
      (∀ x ∈ l, ∀ m', R m0 m' → R m' (f m' x)) →
      ∀ m : Map3, R m0 m → R m0 (l.foldl f m) := by
  intro l
  induction l with
  | nil => intro _ m hm; exact hm
  | cons x xs ih =>
    intro hstep m hm
    have hfx : R m0 (f m x) :=
      htrans _ _ _ hm (hstep x (List.mem_cons_self x xs) m hm)
    exact ih (fun y hy m' hm' => hstep y (List.mem_cons_of_mem x hy) m' hm')
      (f m x) hfx

lemma getD_set_ne (l : List Val) (n idx : ℕ) (v : Val) (h : n ≠ idx) :
    (l.set n v).getD idx Val.nan = l.getD idx Val.nan := by
  rw [List.getD_eq_getElem?_getD, List.getD_eq_getElem?_getD,
    List.getElem?_set_ne h]

lemma getD_set_or (l : List Val) (n idx : ℕ) (v : Val) :
    (l.set n v).getD idx Val.nan = l.getD idx Val.nan ∨
    (l.set n v).getD idx Val.nan = v := by
  by_cases h : n = idx
  · subst h
    by_cases hl : n < l.length
    · right
      rw [List.getD_eq_getElem?_getD,
        show (l.set n v)[n]? = some v by
          rw [List.getElem?_set_self']
          simp [List.getElem?_eq_getElem hl]]
      rfl
    · left
      rw [List.set_eq_of_length_le (by omega)]
  · left; exact getD_set_ne l n idx v h

lemma flatIdx_eq_form (sy sz i j k : ℕ) :
    flatIdx sy sz i j k = (i * sy + j) * sz + k := by
  unfold flatIdx; ring

lemma flatIdx_inj {sy sz i1 j1 k1 i2 j2 k2 : ℕ}
    (hj1 : j1 < sy) (hk1 : k1 < sz) (hj2 : j2 < sy) (hk2 : k2 < sz)
    (h : flatIdx sy sz i1 j1 k1 = flatIdx sy sz i2 j2 k2) :
    i1 = i2 ∧ j1 = j2 ∧ k1 = k2 := by
  rw [flatIdx_eq_form, flatIdx_eq_form] at h
  have hsz : 0 < sz := by omega
  have hsy : 0 < sy := by omega
  have hmod : ∀ modu q r : ℕ, r < modu → (q * modu + r) % modu = r := by
    intro modu q r hr
    rw [Nat.mul_comm, Nat.mul_add_mod, Nat.mod_eq_of_lt hr]
  have hk : k1 = k2 := by
    have h1 : ((i1 * sy + j1) * sz + k1) % sz =
        ((i2 * sy + j2) * sz + k2) % sz := by rw [h]
    rwa [hmod sz _ _ hk1, hmod sz _ _ hk2] at h1
  subst hk
  have hq : i1 * sy + j1 = i2 * sy + j2 :=
    Nat.eq_of_mul_eq_mul_right hsz (Nat.add_right_cancel h)
  have hj : j1 = j2 := by
    have h1 : (i1 * sy + j1) % sy = (i2 * sy + j2) % sy := by rw [hq]
    rwa [hmod sy _ _ hj1, hmod sy _ _ hj2] at h1
  subst hj
  exact ⟨Nat.eq_of_mul_eq_mul_right hsy (Nat.add_right_cancel hq), rfl, rfl⟩

lemma setVox_get_other (m : Map3) (x y z i j k : ℕ) (v : Val)
    (hy : y < m.sy) (hz : z < m.sz) (hj : j < m.sy) (hk : k < m.sz)
    (hne : x ≠ i ∨ y ≠ j ∨ z ≠ k) :
    (m.setVox x y z v).get i j k = m.get i j k := by
  show (m.data.set (flatIdx m.sy m.sz x y z) v).getD
      (flatIdx m.sy m.sz i j k) Val.nan = _
  apply getD_set_ne
  intro heq
  obtain ⟨h1, h2, h3⟩ := flatIdx_inj hy hz hj hk heq
  tauto

end FoldInvariant

/-- Relation: the second map has the first map's shape and data length,
and each voxel either kept its value or was overwritten with zero. -/
def POZ (a b : Map3) : Prop :=
  b.sx = a.sx ∧ b.sy = a.sy ∧ b.sz = a.sz ∧
  b.data.length = a.data.length ∧
  ∀ idx : ℕ, b.data.getD idx Val.nan = a.data.getD idx Val.nan ∨
    b.data.getD idx Val.nan = Val.num 0

lemma POZ_refl (m : Map3) : POZ m m :=
  ⟨rfl, rfl, rfl, rfl, fun _ => Or.inl rfl⟩

lemma POZ_trans (a b c : Map3) (h1 : POZ a b) (h2 : POZ b c) : POZ a c := by
  obtain ⟨e1, e2, e3, e4, hab⟩ := h1
  obtain ⟨f1, f2, f3, f4, hbc⟩ := h2
  refine ⟨f1.trans e1, f2.trans e2, f3.trans e3, f4.trans e4, fun idx => ?_⟩
  rcases hbc idx with h | h
  · rw [h]; exact hab idx
  · right; exact h

lemma setVox_POZ (m : Map3) (x y z : ℕ) :
    POZ m (m.setVox x y z (Val.num 0)) :=
  ⟨rfl, rfl, rfl, by simp [Map3.setVox],
    fun idx => getD_set_or m.data (flatIdx m.sy m.sz x y z) idx (Val.num 0)⟩

lemma zeroBlock_POZ (m : Map3) (i j k n : ℕ) :
    POZ m (zeroBlock m i j k n) := by
  unfold zeroBlock
  exact foldl_rel POZ POZ_trans _ m _
    (fun t _ m' _ => setVox_POZ m' (i + t.1) (j + t.2.1) (k + t.2.2))
    m (POZ_refl m)

lemma windowStep_POZ (t : ℤ) (ns nl : ℕ) (m : Map3) (wi wj wk : ℕ) :
    POZ m (windowStep t ns nl m wi wj wk) := by
  unfold windowStep
  split
  · split
    · split
      · exact zeroBlock_POZ m (wi + 1) (wj + 1) (wk + 1) ns
      · exact POZ_refl m
    · exact POZ_refl m
  · exact POZ_refl m

/-- Every run of correct_by_threshold preserves shape and data length
and only ever overwrites voxels with zero. -/
lemma ct_POZ (img : Map3) (threshold : ℤ) :
    POZ img (correct_by_threshold img threshold) := by
  simp only [correct_by_threshold]
  refine foldl_rel POZ POZ_trans _ img _ (fun i _ m1 _ => ?_) img (POZ_refl img)
  refine foldl_rel POZ POZ_trans _ m1 _ (fun j _ m2 _ => ?_) m1 (POZ_refl m1)
  refine foldl_rel POZ POZ_trans _ m2 _ (fun k _ m3 _ => ?_) m2 (POZ_refl m2)
  exact windowStep_POZ _ _ _ m3 i j k

/-- C5: correct_by_threshold preserves the shape of its input, and every
voxel of the output either equals the corresponding input voxel or is
zero - the correction never writes any value other than zero. -/
theorem C5_correct_by_threshold_only_zeroes (img : Map3) (threshold : ℤ) :
    ((correct_by_threshold img threshold).sx = img.sx ∧
     (correct_by_threshold img threshold).sy = img.sy ∧
     (correct_by_threshold img threshold).sz = img.sz ∧
     (correct_by_threshold img threshold).data.length = img.data.length) ∧
    ∀ i j k : ℕ,
      (correct_by_threshold img threshold).get i j k = img.get i j k ∨
      (correct_by_threshold img threshold).get i j k = Val.num 0 := by
  obtain ⟨e1, e2, e3, e4, h⟩ := ct_POZ img threshold
  refine ⟨⟨e1, e2, e3, e4⟩, fun i j k => ?_⟩
  simp only [Map3.get]
  rw [e2, e3]
  exact h (flatIdx img.sy img.sz i j k)

/-- Relation: the second map has the first map's shape and agrees with
it at the fixed voxel (i, j, k). -/
def SameAt (i j k : ℕ) (a b : Map3) : Prop :=
  b.sx = a.sx ∧ b.sy = a.sy ∧ b.sz = a.sz ∧ b.get i j k = a.get i j k

lemma SameAt_refl (i j k : ℕ) (m : Map3) : SameAt i j k m m :=
  ⟨rfl, rfl, rfl, rfl⟩

lemma SameAt_trans (i j k : ℕ) (a b c : Map3)
    (h1 : SameAt i j k a b) (h2 : SameAt i j k b c) : SameAt i j k a c :=
  ⟨h2.1.trans h1.1, h2.2.1.trans h1.2.1, h2.2.2.1.trans h1.2.2.1,
    h2.2.2.2.trans h1.2.2.2⟩

/-- Zeroing the inner nsmall-block of a window leaves any voxel outside
the block untouched. -/
lemma zeroBlock_sameAt (m : Map3) (wi wj wk ns i j k : ℕ)
    (hy : wj + 1 + ns ≤ m.sy) (hz : wk + 1 + ns ≤ m.sz)
    (hj : j < m.sy) (hk : k < m.sz)
    (hne : ∀ a b c : ℕ, a < ns → b < ns → c < ns →
      wi + 1 + a ≠ i ∨ wj + 1 + b ≠ j ∨ wk + 1 + c ≠ k) :
    SameAt i j k m (zeroBlock m (wi + 1) (wj + 1) (wk + 1) ns) := by
  unfold zeroBlock
  refine foldl_rel (SameAt i j k) (SameAt_trans i j k) _ m _
    (fun t ht m' hm' => ?_) m (SameAt_refl i j k m)
  simp only [List.mem_flatMap, List.mem_map, List.mem_range] at ht
  obtain ⟨a, ha, b, hb, c, hc, hteq⟩ := ht
  obtain ⟨f1, f2, f3, f4⟩ := hm'
  subst hteq
  dsimp only
  refine ⟨rfl, rfl, rfl, ?_⟩
  apply setVox_get_other
  · rw [f2]; omega
  · rw [f3]; omega
  · rw [f2]; exact hj
  · rw [f3]; exact hk
  · exact hne a b c ha hb hc

/-- One window step leaves any boundary voxel untouched: the zeroed
inner block lies strictly inside the volume. -/
lemma windowStep_sameAt (t : ℤ) (ns : ℕ) (m : Map3) (wi wj wk i j k : ℕ)
    (hwi : wi + (ns + 2) ≤ m.sx) (hwj : wj + (ns + 2) ≤ m.sy)
    (hwk : wk + (ns + 2) ≤ m.sz)
    (hi : i < m.sx) (hj : j < m.sy) (hk : k < m.sz)
    (hb : i = 0 ∨ i = m.sx - 1 ∨ j = 0 ∨ j = m.sy - 1 ∨
      k = 0 ∨ k = m.sz - 1) :
    SameAt i j k m (windowStep t ns (ns + 2) m wi wj wk) := by
  unfold windowStep
  split
  · split
    · split
      · refine zeroBlock_sameAt m wi wj wk ns i j k (by omega) (by omega)
          hj hk ?_
        intro a b c ha hb' hc
        omega
      · exact SameAt_refl i j k m
    · exact SameAt_refl i j k m
  · exact SameAt_refl i j k m

/-- C9: correct_by_threshold never modifies a voxel on the boundary of
the volume: at every voxel with index 0 or size-1 along some axis the
output equals the input, because every zeroed voxel has all three
indices strictly between 0 and the corresponding size minus 1. -/
theorem C9_boundary_voxels_untouched (img : Map3) (threshold : ℤ)
    (i j k : ℕ) (hi : i < img.sx) (hj : j < img.sy) (hk : k < img.sz)
    (hb : i = 0 ∨ i = img.sx - 1 ∨ j = 0 ∨ j = img.sy - 1 ∨
      k = 0 ∨ k = img.sz - 1) :
    (correct_by_threshold img threshold).get i j k = img.get i j k := by
  have main : SameAt i j k img (correct_by_threshold img threshold) := by
    simp only [correct_by_threshold]
    refine foldl_rel (SameAt i j k) (SameAt_trans i j k) _ img _
      (fun wi hwi m1 hm1 => ?_) img (SameAt_refl i j k img)
    refine foldl_rel (SameAt i j k) (SameAt_trans i j k) _ m1 _
      (fun wj hwj m2 hm2 => ?_) m1 (SameAt_refl i j k m1)
    refine foldl_rel (SameAt i j k) (SameAt_trans i j k) _ m2 _
      (fun wk hwk m3 hm3 => ?_) m2 (SameAt_refl i j k m2)
    have ex : m3.sx = img.sx := by rw [hm3.1, hm2.1, hm1.1]
    have ey : m3.sy = img.sy := by rw [hm3.2.1, hm2.2.1, hm1.2.1]
    have ez : m3.sz = img.sz := by rw [hm3.2.2.1, hm2.2.2.1, hm1.2.2.1]
    rw [List.mem_range] at hwi hwj hwk
    refine windowStep_sameAt threshold (nsmallOf threshold) m3 wi wj wk i j k
      ?_ ?_ ?_ ?_ ?_ ?_ ?_
    · rw [ex]; omega
    · rw [ey]; omega
    · rw [ez]; omega
    · rw [ex]; exact hi
    · rw [ey]; exact hj
    · rw [ez]; exact hk
    · rw [ex, ey, ez]; exact hb
  exact main.2.2.2

/-- Witness for C9: the single corner voxel of a concrete 3 by 3 by 3
map is on the boundary and survives the correction with threshold 2. -/
theorem C9_witness :
    (correct_by_threshold
      (Map3.mk 3 3 3 (Val.num 1 :: List.replicate 26 (Val.num 0))) 2).get 0 0 0 =
      (Map3.mk 3 3 3 (Val.num 1 :: List.replicate 26 (Val.num 0))).get 0 0 0 :=
  C9_boundary_voxels_untouched
    (Map3.mk 3 3 3 (Val.num 1 :: List.replicate 26 (Val.num 0))) 2
    0 0 0 (by decide) (by decide) (by decide) (Or.inl rfl)

/-- Six-connectivity adjacency of voxel index triples: the triples
differ by exactly one along exactly one axis (face neighbours, the
usual reading of contiguous voxels). -/
def adjacent6 (p q : ℕ × ℕ × ℕ) : Prop :=
  (p.2.1 = q.2.1 ∧ p.2.2 = q.2.2 ∧ (p.1 = q.1 + 1 ∨ q.1 = p.1 + 1)) ∨
  (p.1 = q.1 ∧ p.2.2 = q.2.2 ∧ (p.2.1 = q.2.1 + 1 ∨ q.2.1 = p.2.1 + 1)) ∨
  (p.1 = q.1 ∧ p.2.1 = q.2.1 ∧ (p.2.2 = q.2.2 + 1 ∨ q.2.2 = p.2.2 + 1))

/-- A non-zero voxel of the map: a valid index triple whose value is
not exact zero (the source's cluster tests compare against 0 with ==,
under which NaN counts as non-zero). -/
def nzVoxel (m : Map3) (p : ℕ × ℕ × ℕ) : Prop :=
  p.1 < m.sx ∧ p.2.1 < m.sy ∧ p.2.2 < m.sz ∧
  m.get p.1 p.2.1 p.2.2 ≠ Val.num 0

/-- Two voxels lie in the same maximal contiguous cluster of non-zero
voxels: they are joined by a chain of 6-adjacent non-zero voxels.  The
maximal cluster containing a non-zero voxel p is the set of all q with
sameCluster m p q. -/
def sameCluster (m : Map3) : ℕ × ℕ × ℕ → ℕ × ℕ × ℕ → Prop :=
  Relation.ReflTransGen fun p q => nzVoxel m p ∧ nzVoxel m q ∧ adjacent6 p q

/-- The 3 by 3 by 3 map whose only non-zero voxel is the centre voxel
(1, 1, 1) with value 7. -/
def centreMap : Map3 :=
  Map3.mk 3 3 3
    (List.replicate 13 (Val.num 0) ++ Val.num 7 ::
      List.replicate 13 (Val.num 0))

/-- Counterexample to C2 as stated: in centreMap the maximal contiguous
cluster of the non-zero voxel (1, 1, 1) is the singleton, of voxel
count 1, which is below the threshold 2; yet correct_by_threshold
returns the map unchanged and the voxel keeps its non-zero value 7,
because with threshold 2 the scan window has side nsmall + 2 = 4 and no
window fits inside a 3 by 3 by 3 volume, so no voxel is ever examined. -/
theorem C2_counterexample :
    nzVoxel centreMap (1, 1, 1) ∧
    (∀ q, sameCluster centreMap (1, 1, 1) q → q = (1, 1, 1)) ∧
    correct_by_threshold centreMap 2 = centreMap ∧
    centreMap.get 1 1 1 = Val.num 7 ∧ Val.num 7 ≠ Val.num 0 := by
  have honly : ∀ q, nzVoxel centreMap q → q = (1, 1, 1) := by
    rintro ⟨i, j, k⟩ ⟨hi, hj, hk, hv⟩
    have hi3 : i < 3 := hi
    have hj3 : j < 3 := hj
    have hk3 : k < 3 := hk
    interval_cases i <;> interval_cases j <;> interval_cases k <;>
      first
        | rfl
        | exact absurd rfl hv
  refine ⟨?_, ?_, rfl, rfl, by simp⟩
  · exact ⟨by decide, by decide, by decide, by
      show Val.num 7 ≠ Val.num 0
      simp⟩
  · intro q h
    induction h with
    | refl => rfl
    | tail _hab hstep _ih => exact honly _ hstep.2.1

/-- C2 as amended: correct_by_threshold preserves shape and only ever
clears voxels (every output voxel equals the input voxel or is zero),
but it is a local-window heuristic, not exact cluster thresholding: a
below-threshold cluster can survive unchanged, as the centreMap
example shows (its only cluster has one voxel, below threshold 2, and
the whole map comes back untouched). -/
theorem C2_cluster_correction_heuristic (img : Map3) (threshold : ℤ) :
    (((correct_by_threshold img threshold).sx = img.sx ∧
      (correct_by_threshold img threshold).sy = img.sy ∧
      (correct_by_threshold img threshold).sz = img.sz ∧
      (correct_by_threshold img threshold).data.length = img.data.length) ∧
     ∀ idx : ℕ,
       (correct_by_threshold img threshold).data.getD idx Val.nan =
         img.data.getD idx Val.nan ∨
       (correct_by_threshold img threshold).data.getD idx Val.nan =
         Val.num 0) ∧
    correct_by_threshold centreMap 2 = centreMap := by
  obtain ⟨e1, e2, e3, e4, h⟩ := ct_POZ img threshold
  exact ⟨⟨⟨e1, e2, e3, e4⟩, h⟩, rfl⟩

/-- Heap of numpy array objects, indexed by object identity. -/
def Heap : Type := ℕ → Map3

/-- Call-level model of correct_by_threshold (stuff.py lines 288-376):
the source mutates the array object passed in purely in place - every
write is a slice assignment into img (line 372) - and its final
statement returns img itself (line 376).  At object level a call
overwrites the caller's array cell with the corrected contents and
returns a reference to that same cell. -/
def correct_by_threshold_call (h : Heap) (a : ℕ) (t : ℤ) : Heap × ℕ :=
  (Function.update h a (correct_by_threshold (h a) t), a)

/-- C10: correct_by_threshold mutates its input array in place and
returns that same array: the returned reference is the one passed in,
after the call the caller's array holds exactly the corrected map (so
it is elementwise equal to the returned map), and no other array
object changes - no unmodified copy of the original data survives the
call. -/
theorem C10_in_place_mutation (h : Heap) (a : ℕ) (t : ℤ) :
    (correct_by_threshold_call h a t).2 = a ∧
    (correct_by_threshold_call h a t).1 ((correct_by_threshold_call h a t).2) =
      correct_by_threshold (h a) t ∧
    ∀ b : ℕ, b ≠ a → (correct_by_threshold_call h a t).1 b = h b := by
  refine ⟨rfl, ?_, ?_⟩
  · show Function.update h a (correct_by_threshold (h a) t) a = _
    simp
  · intro b hb
    show Function.update h a (correct_by_threshold (h a) t) b = h b
    rw [Function.update_apply, if_neg hb]

/-- Witness for C10 on a concrete one-object heap. -/
theorem C10_witness :
    (correct_by_threshold_call (fun _ => Map3.mk 1 1 1 [Val.num 1]) 0 1).2 = 0 ∧
    (correct_by_threshold_call (fun _ => Map3.mk 1 1 1 [Val.num 1]) 0 1).1 0 =
      correct_by_threshold (Map3.mk 1 1 1 [Val.num 1]) 1 ∧
    (correct_by_threshold_call (fun _ => Map3.mk 1 1 1 [Val.num 1]) 0 1).1 1 =
      Map3.mk 1 1 1 [Val.num 1] := by
  obtain ⟨h1, h2, h3⟩ :=
    C10_in_place_mutation (fun _ => Map3.mk 1 1 1 [Val.num 1]) 0 1
  exact ⟨h1, h2, h3 1 (by decide)⟩
